import Mathlib

/-!
Shallow embedding of `activity-report.py`: a GitHub user-activity auditor.

The script walks organizations → repository pages → repositories, runs four
scans per repository (default-branch commits, per-branch recent commits,
repository events, a 90-day fallback commit walk), updates a per-user summary
record, persists a checkpoint mapping after each repository, and shrinks the
active-user list as users satisfy all three activity flags.

Remote reads go through `github_request`, which returns a parsed payload or
the sentinel `None` ("unavailable"); here the remote API is an oracle whose
endpoints return `Option (List _)`, matching that return type.  The on-disk
side effects (checkpoint writes, requested repository pages) are recorded in
the scan state so that theorems can speak about them.
-/

set_option maxRecDepth 8000

/-- A commit as consumed by the scanner: the author login
(`commit["author"]["login"]`, absent when the author object or login is
missing) and the commit author date (`commit["commit"]["author"]["date"]`). -/
structure Commit where
  author : Option String
  date : Option String
  deriving DecidableEq, Repr

/-- A branch as returned by the branch-list endpoint. -/
structure Branch where
  name : String
  deriving DecidableEq, Repr

/-- A repository event: actor login and event type. -/
structure Event where
  actor : Option String
  type : String
  deriving DecidableEq, Repr

/-- A repository as returned by the org-repos endpoint. -/
structure Repo where
  name : String
  full_name : String
  default_branch : String
  deriving DecidableEq, Repr

/-- One row of the repository audit trail (`repo_audit.append(...)`). -/
structure RepoAuditEntry where
  repo : String
  default_branch : String
  deriving DecidableEq, Repr

/-- The per-user summary record (`user_summary[uid]`). -/
structure UserRecord where
  default_commit : Bool
  any_commit : Bool
  any_activity : Bool
  default_commit_source : Option String
  any_commit_source : Option String
  any_activity_source : Option String
  last_push_date : Option String
  deriving DecidableEq, Repr

/-- The record every tracked user starts with. -/
def initUserRecord : UserRecord :=
  { default_commit := false
    any_commit := false
    any_activity := false
    default_commit_source := none
    any_commit_source := none
    any_activity_source := none
    last_push_date := none }

/-- The remote API as an oracle.  Each endpoint yields a parsed payload
(`some`) or the "unavailable" sentinel (`none`) that `github_request`
produces on any failure.  `commitsSince org repo sha days` abstracts the
commits endpoint with `sha=` set to a branch name and `since=` set to
`now - days` (the script uses 60, 30 and 90 day windows). -/
structure Api where
  orgRepos : String → Nat → Option (List Repo)
  commitsSince : String → String → String → Nat → Option (List Commit)
  branches : String → String → Option (List Branch)
  events : String → String → Option (List Event)

/-- Python truthiness of an optional list: `if not xs` is taken for `None`
and for the empty list alike. -/
def isUnavailableOrEmpty {α : Type} : Option (List α) → Bool
  | none => true
  | some l => l.isEmpty

/-- The payload of an optional list, defaulting to no items: iterating over
an absent payload never happens in the source because the surrounding
truthiness checks skip it, and folding over `[]` is the same no-op. -/
def optList {α : Type} : Option (List α) → List α
  | none => []
  | some l => l

-- ----------------------- rate-limit guard and fetcher -----------------------

/-- An HTTP response as `rate_limit_guard`/`github_request` observe it:
status code, the two rate-limit headers (already parsed to integers when
present), and the result of `response.json()` (`Except.error` models a parse
failure raising). -/
structure HttpResponse (α : Type) where
  status_code : Nat
  rateRemaining : Option Int
  rateReset : Option Int
  jsonBody : Except String α

/-- `rate_limit_guard(response)`: when the status is 403 and the
`X-RateLimit-Remaining` header is present and zero, computes
`sleep_time = reset - int(time.time()) + 1` and sleeps that long.
Returns `.ok s` where `s` is the number of seconds slept (0 when no sleep
happens).  `.error` models a Python exception escaping the guard: a missing
`X-RateLimit-Reset` header (KeyError) or a negative sleep argument
(ValueError); both are caught by `github_request`'s handler. -/
def rate_limit_guard {α : Type} (now : Int) (response : HttpResponse α) :
    Except String Int :=
  match response.rateRemaining with
  | none => Except.ok 0
  | some remaining =>
    if response.status_code == 403 then
      if remaining == 0 then
        match response.rateReset with
        | none => Except.error "KeyError: X-RateLimit-Reset"
        | some reset =>
          let sleep_time : Int := reset - now + 1
          if sleep_time < 0 then Except.error "ValueError: negative sleep"
          else Except.ok sleep_time
      else Except.ok 0
    else Except.ok 0

/-- The line `log_error` appends for a failed request:
`f"Failed request to {url}: {e}"`. -/
def failLog (url e : String) : String :=
  "Failed request to " ++ url ++ ": " ++ e

/-- What one `github_request` call produces: the returned value (`none` is
the "unavailable" sentinel), the seconds slept in the rate-limit guard, and
the error-log line appended, if any. -/
structure FetchResult (α : Type) where
  value : Option α
  slept : Int
  log : Option String

/-- `github_request(session, url, headers)`.  The GET itself either raises
(`get = .error e`) or yields a response; then the rate-limit guard runs,
`raise_for_status` raises on any status ≥ 400, and the body is parsed.
Every exception is caught, logged with the url, and downgraded to `none`. -/
def github_request {α : Type} (now : Int) (url : String)
    (get : Except String (HttpResponse α)) : FetchResult α :=
  match get with
  | Except.error e => { value := none, slept := 0, log := some (failLog url e) }
  | Except.ok response =>
    match rate_limit_guard now response with
    | Except.error e => { value := none, slept := 0, log := some (failLog url e) }
    | Except.ok slept =>
      if 400 ≤ response.status_code then
        { value := none, slept := slept
          log := some (failLog url ("HTTPError " ++ toString response.status_code)) }
      else
        match response.jsonBody with
        | Except.ok v => { value := some v, slept := slept, log := none }
        | Except.error e =>
          { value := none, slept := slept, log := some (failLog url e) }

-- ----------------------- scan state and per-item steps -----------------------

/-- The mutable state of `check_user_activity`.  The checkpoint mapping
`cache` always maps keys to the empty object in the source, so it is
modelled by its key list; `saves` records the successive contents written to
the checkpoint file, and `pageFetches` records each repository-page request
`(org, page)` issued by the pagination loop. -/
structure ScanState where
  user_summary : String → UserRecord
  user_ids : List String
  cache : List String
  repo_audit : List RepoAuditEntry
  saves : List (List String)
  pageFetches : List (String × Nat)

/-- Point update of the summary table: `user_summary[a] = r`. -/
def updateUser (summary : String → UserRecord) (a : String) (r : UserRecord) :
    String → UserRecord :=
  fun u => if u = a then r else summary u

/-- One commit of the default-branch scan (lines 112-116): if the author is
an active user whose `default_commit` flag is still false, set the flag and
record the repo key as the source. -/
def defaultScanStep (repo_key : String) (user_ids : List String)
    (summary : String → UserRecord) (commit : Commit) : String → UserRecord :=
  match commit.author with
  | none => summary
  | some author =>
    if author ∈ user_ids ∧ (summary author).default_commit = false then
      updateUser summary author
        { summary author with
          default_commit := true
          default_commit_source := some repo_key }
    else summary

/-- One commit of the 30-day any-branch scan (lines 129-133). -/
def anyCommitStep (repo_key branch_name : String) (user_ids : List String)
    (summary : String → UserRecord) (commit : Commit) : String → UserRecord :=
  match commit.author with
  | none => summary
  | some author =>
    if author ∈ user_ids ∧ (summary author).any_commit = false then
      updateUser summary author
        { summary author with
          any_commit := true
          any_commit_source := some (repo_key ++ "@" ++ branch_name) }
    else summary

/-- One event of the event scan (lines 139-143). -/
def anyActivityStep (repo_key : String) (user_ids : List String)
    (summary : String → UserRecord) (event : Event) : String → UserRecord :=
  match event.actor with
  | none => summary
  | some actor =>
    if actor ∈ user_ids ∧ (summary actor).any_activity = false then
      updateUser summary actor
        { summary actor with
          any_activity := true
          any_activity_source := some (repo_key ++ ":" ++ event.type) }
    else summary

/-- Python truthiness of the stored `last_push_date`: `None` and the empty
string are both falsy. -/
def truthyDate : Option String → Bool
  | none => false
  | some s => !(s == "")

/-- One commit of the 90-day fallback scan (lines 152-158): for an active
user whose `any_commit` flag is still false, keep the later of the stored
`last_push_date` and this commit's date (`if not prev_date or date > prev_date`).
When the stored date is truthy but the commit date is absent the source
would raise TypeError comparing `None > str`; payloads are modelled with
dates present, and that branch is a no-op here. -/
def fallbackStep (user_ids : List String)
    (summary : String → UserRecord) (commit : Commit) : String → UserRecord :=
  match commit.author with
  | none => summary
  | some author =>
    if author ∈ user_ids ∧ (summary author).any_commit = false then
      if truthyDate (summary author).last_push_date = false then
        updateUser summary author
          { summary author with last_push_date := commit.date }
      else
        match (summary author).last_push_date, commit.date with
        | some prev, some d =>
          if prev < d then
            updateUser summary author
              { summary author with last_push_date := some d }
          else summary
        | _, _ => summary
    else summary

-- ----------------------- per-repository scans -----------------------

/-- Lines 111-116: fold the default-branch commits. -/
def defaultScan (repo_key : String) (user_ids : List String)
    (commits : List Commit) (summary : String → UserRecord) :
    String → UserRecord :=
  commits.foldl (defaultScanStep repo_key user_ids) summary

/-- Lines 124-133: for each branch, fetch its 30-day commits and fold. -/
def branchScan (api : Api) (org rname repo_key : String)
    (user_ids : List String) (bs : List Branch)
    (summary : String → UserRecord) : String → UserRecord :=
  bs.foldl
    (fun acc b =>
      (optList (api.commitsSince org rname b.name 30)).foldl
        (anyCommitStep repo_key b.name user_ids) acc)
    summary

/-- Lines 137-143: fold the repository events. -/
def eventScan (repo_key : String) (user_ids : List String)
    (events : List Event) (summary : String → UserRecord) :
    String → UserRecord :=
  events.foldl (anyActivityStep repo_key user_ids) summary

/-- Lines 146-158: for each branch, fetch its 90-day commits and fold. -/
def fallbackScan (api : Api) (org rname : String) (user_ids : List String)
    (bs : List Branch) (summary : String → UserRecord) :
    String → UserRecord :=
  bs.foldl
    (fun acc b =>
      (optList (api.commitsSince org rname b.name 90)).foldl
        (fallbackStep user_ids) acc)
    summary

/-- The body of `for repo in repos:` (lines 95-171).  The returned Bool is
true when the `continue` at line 123 fired (branch list unavailable or
empty), in which case the remaining steps — any-branch scan, event scan,
fallback scan, checkpoint save, and active-user recomputation — are skipped
and the end-of-body emptiness check is not reached. -/
def processRepoBody (api : Api) (org : String) (repo : Repo) (s : ScanState) :
    ScanState × Bool :=
  let repo_key := org ++ "/" ++ repo.name
  let cache1 := if repo_key ∈ s.cache then s.cache else s.cache ++ [repo_key]
  let audit1 := s.repo_audit ++
    [{ repo := repo_key, default_branch := repo.default_branch }]
  let default_commits := api.commitsSince org repo.name repo.default_branch 60
  let summary1 := defaultScan repo_key s.user_ids (optList default_commits)
    s.user_summary
  let branches := api.branches org repo.name
  if isUnavailableOrEmpty branches then
    ({ s with cache := cache1, repo_audit := audit1, user_summary := summary1 },
     true)
  else
    let bs := optList branches
    let summary2 := branchScan api org repo.name repo_key s.user_ids bs summary1
    let summary3 := eventScan repo_key s.user_ids
      (optList (api.events org repo.name)) summary2
    let summary4 := fallbackScan api org repo.name s.user_ids bs summary3
    let saves1 := s.saves ++ [cache1]
    let ids1 := s.user_ids.filter (fun uid =>
      !((summary4 uid).default_commit && (summary4 uid).any_commit &&
        (summary4 uid).any_activity))
    ({ s with
         user_summary := summary4
         user_ids := ids1
         cache := cache1
         repo_audit := audit1
         saves := saves1 },
     false)

/-- The `for repo in repos:` loop.  After a body that did not `continue`,
lines 170-171 break out of the loop when the active-user list emptied. -/
def processRepos (api : Api) (org : String) : List Repo → ScanState → ScanState
  | [], s => s
  | repo :: rest, s =>
    let step := processRepoBody api org repo s
    if step.2 then processRepos api org rest step.1
    else if step.1.user_ids.isEmpty then step.1
    else processRepos api org rest step.1

/-- The `while True:` pagination loop (lines 87-175), with fuel making the
a-priori unbounded page walk a total function.  Each iteration requests
`(org, page)`; `if not repos: break` and `if len(repos) == 0: break` stop on
an unavailable or empty page; lines 173-174 break when the active-user list
emptied; otherwise `page += 1`. -/
def processPages (api : Api) (org : String) :
    Nat → Nat → ScanState → ScanState
  | 0, _, s => s
  | fuel + 1, page, s =>
    let fetched := api.orgRepos org page
    let s0 := { s with pageFetches := s.pageFetches ++ [(org, page)] }
    if isUnavailableOrEmpty fetched then s0
    else
      let s1 := processRepos api org (optList fetched) s0
      if s1.user_ids.isEmpty then s1
      else processPages api org fuel (page + 1) s1

/-- The `for org in orgs:` loop, from an arbitrary starting state. -/
def runFrom (api : Api) (fuel : Nat) (orgs : List String) (s : ScanState) :
    ScanState :=
  orgs.foldl (fun acc org => processPages api org fuel 1 acc) s

/-- The initial state of a run: every tracked user starts with the empty
record, the active-user list is the tracked list, and the checkpoint cache
starts from the given key list (empty when no checkpoint file exists). -/
def initState (user_ids : List String) (cache0 : List String) : ScanState :=
  { user_summary := fun _ => initUserRecord
    user_ids := user_ids
    cache := cache0
    repo_audit := []
    saves := []
    pageFetches := [] }

/-- `check_user_activity(token, orgs, user_ids)`, scan phase. -/
def check_user_activity (api : Api) (fuel : Nat) (orgs : List String)
    (user_ids : List String) : ScanState :=
  runFrom api fuel orgs (initState user_ids [])

-- ----------------------- report builder -----------------------

/-- One row of the Summary sheet (lines 178-190). -/
structure SummaryRow where
  user_id : String
  default_commit : Bool
  any_commit : Bool
  any_activity : Bool
  last_push_date : Option String
  default_commit_source : Option String
  any_commit_source : Option String
  any_activity_source : Option String
  deriving DecidableEq, Repr

/-- The row built for one user id from the final summary table. -/
def mkSummaryRow (summary : String → UserRecord) (uid : String) : SummaryRow :=
  { user_id := uid
    default_commit := (summary uid).default_commit
    any_commit := (summary uid).any_commit
    any_activity := (summary uid).any_activity
    last_push_date := (summary uid).last_push_date
    default_commit_source := (summary uid).default_commit_source
    any_commit_source := (summary uid).any_commit_source
    any_activity_source := (summary uid).any_activity_source }

/-- The key sequence of the `user_summary` dict: the original `user_ids` in
order, keeping the first occurrence of any duplicate (dict-comprehension
key semantics). -/
def firstOccurrences (seen : List String) : List String → List String
  | [] => []
  | x :: xs =>
    if x ∈ seen then firstOccurrences seen xs
    else x :: firstOccurrences (x :: seen) xs

/-- Key list of `{uid: ... for uid in user_ids}`. -/
def dedupKeys (user_ids : List String) : List String :=
  firstOccurrences [] user_ids

/-- The report phase (lines 177-198): one Summary row per `user_summary`
key — the original tracked identifiers, not the shrunken active list — and
the audit rows exactly as accumulated. -/
def buildReport (api : Api) (fuel : Nat) (orgs : List String)
    (user_ids : List String) : List SummaryRow × List RepoAuditEntry :=
  let s := check_user_activity api fuel orgs user_ids
  ((dedupKeys user_ids).map (mkSummaryRow s.user_summary), s.repo_audit)

-- ----------------------- concrete oracles used by tests -----------------------

/-- Oracle with two organizations.  `o1` has a first page with repositories
`r1`, `r3` and a non-empty second page; `o2` has one repository `r2`.  Every
commit/event endpoint reports activity by `alice`, so `alice` satisfies all
three flags in the first repository scanned. -/
def apiC1 : Api :=
  { orgRepos := fun o p =>
      if o = "o1" then
        (if p = 1 then
          some [{ name := "r1", full_name := "o1/r1", default_branch := "main" },
                { name := "r3", full_name := "o1/r3", default_branch := "main" }]
        else if p = 2 then
          some [{ name := "r4", full_name := "o1/r4", default_branch := "main" }]
        else some [])
      else if o = "o2" then
        (if p = 1 then
          some [{ name := "r2", full_name := "o2/r2", default_branch := "main" }]
        else some [])
      else some []
    commitsSince := fun _ _ _ since =>
      if since = 60 ∨ since = 30 then
        some [{ author := some "alice", date := some "2025-01-01T00:00:00Z" }]
      else some []
    branches := fun _ _ => some [{ name := "dev" }]
    events := fun _ _ => some [{ actor := some "alice", type := "PushEvent" }] }

/-- Oracle whose branch-list endpoint is always unavailable. -/
def apiC2 : Api :=
  { orgRepos := fun o p =>
      if o = "o1" ∧ p = 1 then
        some [{ name := "r1", full_name := "o1/r1", default_branch := "main" }]
      else some []
    commitsSince := fun _ _ _ _ => some []
    branches := fun _ _ => none
    events := fun _ _ => some [] }

/-- The repository both `o1`-oracles serve on their first page. -/
def repoR1 : Repo := { name := "r1", full_name := "o1/r1", default_branch := "main" }

/-- A throttled response: status 403, zero remaining quota, reset at epoch
1005 — five seconds after the observation time 1000 used below. -/
def respC4 : HttpResponse Unit :=
  { status_code := 403, rateRemaining := some 0, rateReset := some 1005
    jsonBody := Except.ok () }

/-- Mock paging oracle: three non-empty pages, then empty pages forever. -/
def apiC7 : Api :=
  { orgRepos := fun _ p =>
      if p = 1 then some [{ name := "a", full_name := "", default_branch := "m" }]
      else if p = 2 then some [{ name := "b", full_name := "", default_branch := "m" }]
      else if p = 3 then some [{ name := "c", full_name := "", default_branch := "m" }]
      else some []
    commitsSince := fun _ _ _ _ => some []
    branches := fun _ _ => some [{ name := "m" }]
    events := fun _ _ => some [] }

/-- Mock paging oracle: one non-empty page, then the fetcher fails
("unavailable"). -/
def apiC7U : Api :=
  { orgRepos := fun _ p =>
      if p = 1 then some [{ name := "a", full_name := "", default_branch := "m" }]
      else none
    commitsSince := fun _ _ _ _ => some []
    branches := fun _ _ => some [{ name := "m" }]
    events := fun _ _ => some [] }

-- ----------------------- C4: rate-limit guard timing -----------------------

/-- C4 counterexample: with a throttled 403 response, zero remaining quota
and `reset = now + 5` (now = 1000, reset = 1005), the guard computes
`sleepSeconds = reset - now + 1 = 6` and blocks for 6 seconds, which is NOT
strictly less than 6 — the claimed `< 6` bound fails. -/
theorem rate_limit_guard_block_not_lt_six :
    rate_limit_guard (1000 : Int) respC4 = Except.ok 6 ∧ ¬ ((6 : Int) < 6) :=
  ⟨by rfl, by decide⟩

/-- C4 (amended): given a throttled (403) response with zero remaining
quota and reset epoch `now + 5`, the guard computes
`sleepSeconds = resetEpoch - nowEpoch + 1 = 6` and blocks for exactly 6
seconds — at least 5, but not strictly less than 6; the strict upper bound
that holds is 7. -/
theorem rate_limit_guard_reset_plus_five {α : Type} (now : Int)
    (response : HttpResponse α) (h403 : response.status_code = 403)
    (hrem : response.rateRemaining = some 0)
    (hreset : response.rateReset = some (now + 5)) :
    rate_limit_guard now response = Except.ok 6 ∧
    (5 : Int) ≤ 6 ∧ (6 : Int) < 7 := by
  refine ⟨?_, by norm_num, by norm_num⟩
  have h6 : (now + 5) - now + 1 = (6 : Int) := by ring
  unfold rate_limit_guard
  rw [hrem, hreset, h403]
  simp [h6]

/-- Witness for `rate_limit_guard_reset_plus_five` at the concrete response
`respC4` observed at epoch 1000. -/
theorem rate_limit_guard_reset_plus_five_witness :
    rate_limit_guard (1000 : Int) respC4 = Except.ok 6 ∧
    (5 : Int) ≤ 6 ∧ (6 : Int) < 7 :=
  rate_limit_guard_reset_plus_five 1000 respC4 (by decide) (by decide) (by decide)

-- ----------------------- C7: pagination walker -----------------------

/-- C7: the pagination loop requests pages 1, 2, 3, … in order.  Against
`apiC7` (three non-empty pages, then an empty page) it requests exactly
pages 1-4 and yields exactly 3 repository batches (here one repository per
page, so 3 audit rows); against `apiC7U` (one non-empty page, then
"unavailable") it requests pages 1-2 and yields exactly 1 batch.  The
tracked user `u` never matches anything, so the active set never empties. -/
theorem pagination_three_batches :
    (check_user_activity apiC7 10 ["o"] ["u"]).pageFetches =
      [("o", 1), ("o", 2), ("o", 3), ("o", 4)] ∧
    (check_user_activity apiC7 10 ["o"] ["u"]).repo_audit.length = 3 ∧
    (check_user_activity apiC7U 10 ["o"] ["u"]).pageFetches = [("o", 1), ("o", 2)] ∧
    (check_user_activity apiC7U 10 ["o"] ["u"]).repo_audit.length = 1 := by
  decide

-- ----------------------- C2: checkpoint persistence -----------------------

/-- C2 counterexample: one organization with one repository whose branch
list is unavailable.  The repository is visited (one RepoAuditEntry) and its
checkpoint key is created in memory, yet the checkpoint file is never
written (`saves = []`): the `continue` skips the save, so this repository's
progress would be lost entirely by a crash. -/
theorem audited_repo_without_checkpoint_save :
    (check_user_activity apiC2 5 ["o1"] ["alice"]).repo_audit.length = 1 ∧
    (check_user_activity apiC2 5 ["o1"] ["alice"]).saves = [] ∧
    (check_user_activity apiC2 5 ["o1"] ["alice"]).cache = ["o1/r1"] := by
  decide

/-- C2 (amended): the checkpoint mapping is written to stable storage after
a repository's processing completes for every repository whose branch-list
fetch returns an available, non-empty list; a repository whose branch fetch
is unavailable or empty is audited but `continue`d before the save, so its
visit triggers no write and its progress is persisted only by a later
repository's save. -/
theorem checkpoint_saved_when_branches_available (api : Api) (org : String)
    (repo : Repo) (s : ScanState)
    (h : isUnavailableOrEmpty (api.branches org repo.name) = false) :
    (processRepoBody api org repo s).1.saves
      = s.saves ++ [(processRepoBody api org repo s).1.cache] := by
  unfold processRepoBody
  simp [h]

/-- Witness for `checkpoint_saved_when_branches_available`: `apiC1` always
serves a one-branch list, so scanning `o1/r1` appends one checkpoint write. -/
theorem checkpoint_saved_when_branches_available_witness :
    (processRepoBody apiC1 "o1" repoR1 (initState ["alice"] [])).1.saves
      = (initState ["alice"] []).saves ++
        [(processRepoBody apiC1 "o1" repoR1 (initState ["alice"] [])).1.cache] :=
  checkpoint_saved_when_branches_available apiC1 "o1" repoR1
    (initState ["alice"] []) (by decide)

-- ----------------------- C1: abort on empty active set -----------------------

/-- C1 counterexample: running over `["o1"]` alone, `alice` satisfies all
three flags in `o1/r1`, the set empties there, and the remaining repository
`o1/r3` of page 1 and the non-empty page 2 of `o1` are aborted (only
`o1/r1` audited, only page 1 fetched).  But over `["o1", "o2"]` the run does
NOT abort the remaining organization: `o2`'s first page is still fetched and
its repository `o2/r2` is still scanned after the set emptied in `o1/r1`. -/
theorem further_org_scanned_after_set_empties :
    (check_user_activity apiC1 5 ["o1"] ["alice"]).user_ids = [] ∧
    (check_user_activity apiC1 5 ["o1"] ["alice"]).repo_audit.map
      RepoAuditEntry.repo = ["o1/r1"] ∧
    (check_user_activity apiC1 5 ["o1"] ["alice"]).pageFetches = [("o1", 1)] ∧
    (check_user_activity apiC1 5 ["o1", "o2"] ["alice"]).repo_audit.map
      RepoAuditEntry.repo = ["o1/r1", "o2/r2"] ∧
    (check_user_activity apiC1 5 ["o1", "o2"] ["alice"]).pageFetches =
      [("o1", 1), ("o2", 1)] := by
  decide

/-- The repository-body step never issues a repository-page request. -/
theorem processRepoBody_pageFetches (api : Api) (org : String) (repo : Repo)
    (s : ScanState) :
    (processRepoBody api org repo s).1.pageFetches = s.pageFetches := by
  unfold processRepoBody
  by_cases h : isUnavailableOrEmpty (api.branches org repo.name) <;> simp [h]

/-- The repository-body step keeps an empty active-user list empty. -/
theorem processRepoBody_empty_ids (api : Api) (org : String) (repo : Repo)
    (s : ScanState) (h : s.user_ids = []) :
    (processRepoBody api org repo s).1.user_ids = [] := by
  unfold processRepoBody
  by_cases hb : isUnavailableOrEmpty (api.branches org repo.name) <;>
    simp [hb, h]

/-- With an empty active-user list the repository loop keeps it empty and
issues no page request. -/
theorem processRepos_empty_ids (api : Api) (org : String) (rs : List Repo)
    (s : ScanState) (h : s.user_ids = []) :
    (processRepos api org rs s).user_ids = [] ∧
    (processRepos api org rs s).pageFetches = s.pageFetches := by
  induction rs generalizing s with
  | nil => exact ⟨h, rfl⟩
  | cons repo rest ih =>
    unfold processRepos
    have hids := processRepoBody_empty_ids api org repo s h
    have hpf := processRepoBody_pageFetches api org repo s
    by_cases hskip : (processRepoBody api org repo s).2
    · simp only [hskip, if_true]
      have := ih (processRepoBody api org repo s).1 hids
      exact ⟨this.1, this.2.trans hpf⟩
    · simp only [hskip, if_false, hids, List.isEmpty_nil, if_true]
      exact ⟨hids, hpf⟩

/-- C1 (amended): when the active-user set empties, the remaining
repositories and pages of the CURRENT organization are aborted, but the
organization loop is not: an organization entered with an empty active set
still has exactly one repository page fetched (page 1) and that page's
repositories scanned up to and including the first one whose branch list is
available and non-empty, before the loop breaks with the set still empty. -/
theorem empty_active_set_fetches_one_page_per_org (api : Api) (org : String)
    (fuel : Nat) (s : ScanState) (h : s.user_ids = []) (hfuel : 1 ≤ fuel) :
    (processPages api org fuel 1 s).pageFetches = s.pageFetches ++ [(org, 1)] ∧
    (processPages api org fuel 1 s).user_ids = [] := by
  obtain ⟨f, rfl⟩ : ∃ f, fuel = f + 1 := ⟨fuel - 1, by omega⟩
  unfold processPages
  by_cases he : isUnavailableOrEmpty (api.orgRepos org 1)
  · simp [he, h]
  · simp only [he, if_false, Bool.false_eq_true]
    have h0 : ({ s with pageFetches := s.pageFetches ++ [(org, 1)] } :
        ScanState).user_ids = [] := h
    have hr := processRepos_empty_ids api org (optList (api.orgRepos org 1)) _ h0
    simp only [hr.1, List.isEmpty_nil, if_true]
    exact ⟨hr.2, trivial⟩

/-- Witness for `empty_active_set_fetches_one_page_per_org`: a state with no
active users entering `o2` of `apiC1` still fetches `(o2, 1)`. -/
theorem empty_active_set_fetches_one_page_per_org_witness :
    (processPages apiC1 "o2" 5 1 (initState [] [])).pageFetches =
      (initState [] []).pageFetches ++ [("o2", 1)] ∧
    (processPages apiC1 "o2" 5 1 (initState [] [])).user_ids = [] :=
  empty_active_set_fetches_one_page_per_org apiC1 "o2" 5 (initState [] [])
    (by decide) (by omega)

-- ----------------------- record-evolution invariants -----------------------

/-- Flag/source monotonicity between two snapshots of one user's record:
a flag that is true stays true and its paired source is not rewritten. -/
def RecordLe (r r' : UserRecord) : Prop :=
  (r.default_commit = true →
     r'.default_commit = true ∧
     r'.default_commit_source = r.default_commit_source) ∧
  (r.any_commit = true →
     r'.any_commit = true ∧ r'.any_commit_source = r.any_commit_source) ∧
  (r.any_activity = true →
     r'.any_activity = true ∧ r'.any_activity_source = r.any_activity_source)

theorem recordLe_refl (r : UserRecord) : RecordLe r r :=
  ⟨fun h => ⟨h, rfl⟩, fun h => ⟨h, rfl⟩, fun h => ⟨h, rfl⟩⟩

theorem recordLe_trans {a b c : UserRecord} (h1 : RecordLe a b)
    (h2 : RecordLe b c) : RecordLe a c := by
  obtain ⟨d1, c1, a1⟩ := h1
  obtain ⟨d2, c2, a2⟩ := h2
  refine ⟨fun h => ?_, fun h => ?_, fun h => ?_⟩
  · obtain ⟨hb, hs⟩ := d1 h
    obtain ⟨hc, hs2⟩ := d2 hb
    exact ⟨hc, hs2.trans hs⟩
  · obtain ⟨hb, hs⟩ := c1 h
    obtain ⟨hc, hs2⟩ := c2 hb
    exact ⟨hc, hs2.trans hs⟩
  · obtain ⟨hb, hs⟩ := a1 h
    obtain ⟨hc, hs2⟩ := a2 hb
    exact ⟨hc, hs2.trans hs⟩

/-- Well-formedness of one record: every flag that is true has its paired
source string set. -/
def WFRecord (r : UserRecord) : Bool :=
  (!r.default_commit || r.default_commit_source.isSome) &&
  (!r.any_commit || r.any_commit_source.isSome) &&
  (!r.any_activity || r.any_activity_source.isSome)

/-- A user satisfying all three activity conditions. -/
def Satisfied (r : UserRecord) : Bool :=
  r.default_commit && r.any_commit && r.any_activity

/-- How one scan step may evolve the summary table: pointwise monotone,
well-formedness preserving, and freezing any fully-satisfied record. -/
def SumEvolves (σ σ' : String → UserRecord) : Prop :=
  ∀ u, RecordLe (σ u) (σ' u) ∧
    (WFRecord (σ u) = true → WFRecord (σ' u) = true) ∧
    (Satisfied (σ u) = true → σ' u = σ u)

theorem sumEvolves_refl (σ : String → UserRecord) : SumEvolves σ σ :=
  fun u => ⟨recordLe_refl (σ u), id, fun _ => rfl⟩

theorem sumEvolves_trans {a b c : String → UserRecord} (h1 : SumEvolves a b)
    (h2 : SumEvolves b c) : SumEvolves a c := by
  intro u
  obtain ⟨le1, wf1, sat1⟩ := h1 u
  obtain ⟨le2, wf2, sat2⟩ := h2 u
  refine ⟨recordLe_trans le1 le2, fun h => wf2 (wf1 h), fun h => ?_⟩
  have hb : b u = a u := sat1 h
  have : Satisfied (b u) = true := by rw [hb]; exact h
  exact (sat2 this).trans hb

/-- Folding evolution-preserving steps preserves evolution. -/
theorem foldl_rel {α σ : Type} (P : σ → σ → Prop)
    (htrans : ∀ a b c, P a b → P b c → P a c)
    (f : σ → α → σ) (hstep : ∀ s a, P s (f s a)) (hrefl : ∀ s, P s s) :
    ∀ (l : List α) (s : σ), P s (l.foldl f s) := by
  intro l
  induction l with
  | nil => intro s; exact hrefl s
  | cons a t ih =>
    intro s
    exact htrans _ _ _ (hstep s a) (ih (f s a))

/-- A point update evolves the table when the new record evolves the old
one at the updated key. -/
theorem sumEvolves_updateUser (summary : String → UserRecord) (a : String)
    (r' : UserRecord) (hle : RecordLe (summary a) r')
    (hwf : WFRecord (summary a) = true → WFRecord r' = true)
    (hsat : Satisfied (summary a) = true → r' = summary a) :
    SumEvolves summary (updateUser summary a r') := by
  intro u
  by_cases hu : u = a
  · subst hu
    have hval : updateUser summary u r' u = r' := by simp [updateUser]
    rw [hval]
    exact ⟨hle, hwf, hsat⟩
  · have hval : updateUser summary a r' u = summary u := by simp [updateUser, hu]
    rw [hval]
    exact ⟨recordLe_refl _, id, fun _ => rfl⟩

theorem defaultScanStep_evolves (key : String) (ids : List String)
    (summary : String → UserRecord) (c : Commit) :
    SumEvolves summary (defaultScanStep key ids summary c) := by
  unfold defaultScanStep
  cases c.author with
  | none => exact sumEvolves_refl summary
  | some a =>
    dsimp only
    by_cases hcond : a ∈ ids ∧ (summary a).default_commit = false
    · rw [if_pos hcond]
      refine sumEvolves_updateUser summary a _ ⟨fun h => ?_, fun h => ⟨h, rfl⟩,
        fun h => ⟨h, rfl⟩⟩ (fun h => ?_) (fun h => ?_)
      · rw [hcond.2] at h; cases h
      · simp only [WFRecord, Bool.and_eq_true, Bool.or_eq_true,
          Bool.not_eq_true'] at h ⊢
        exact ⟨⟨Or.inr rfl, h.1.2⟩, h.2⟩
      · simp only [Satisfied, Bool.and_eq_true] at h
        rw [hcond.2] at h
        cases h.1.1
    · rw [if_neg hcond]
      exact sumEvolves_refl summary

theorem anyCommitStep_evolves (key bname : String) (ids : List String)
    (summary : String → UserRecord) (c : Commit) :
    SumEvolves summary (anyCommitStep key bname ids summary c) := by
  unfold anyCommitStep
  cases c.author with
  | none => exact sumEvolves_refl summary
  | some a =>
    dsimp only
    by_cases hcond : a ∈ ids ∧ (summary a).any_commit = false
    · rw [if_pos hcond]
      refine sumEvolves_updateUser summary a _ ⟨fun h => ⟨h, rfl⟩, fun h => ?_,
        fun h => ⟨h, rfl⟩⟩ (fun h => ?_) (fun h => ?_)
      · rw [hcond.2] at h; cases h
      · simp only [WFRecord, Bool.and_eq_true, Bool.or_eq_true,
          Bool.not_eq_true'] at h ⊢
        exact ⟨⟨h.1.1, Or.inr rfl⟩, h.2⟩
      · simp only [Satisfied, Bool.and_eq_true] at h
        rw [hcond.2] at h
        cases h.1.2
    · rw [if_neg hcond]
      exact sumEvolves_refl summary

theorem anyActivityStep_evolves (key : String) (ids : List String)
    (summary : String → UserRecord) (e : Event) :
    SumEvolves summary (anyActivityStep key ids summary e) := by
  unfold anyActivityStep
  cases e.actor with
  | none => exact sumEvolves_refl summary
  | some a =>
    dsimp only
    by_cases hcond : a ∈ ids ∧ (summary a).any_activity = false
    · rw [if_pos hcond]
      refine sumEvolves_updateUser summary a _ ⟨fun h => ⟨h, rfl⟩,
        fun h => ⟨h, rfl⟩, fun h => ?_⟩ (fun h => ?_) (fun h => ?_)
      · rw [hcond.2] at h; cases h
      · simp only [WFRecord, Bool.and_eq_true, Bool.or_eq_true,
          Bool.not_eq_true'] at h ⊢
        exact ⟨h.1, Or.inr rfl⟩
      · simp only [Satisfied, Bool.and_eq_true] at h
        rw [hcond.2] at h
        cases h.2
    · rw [if_neg hcond]
      exact sumEvolves_refl summary

theorem fallbackStep_evolves (ids : List String)
    (summary : String → UserRecord) (c : Commit) :
    SumEvolves summary (fallbackStep ids summary c) := by
  unfold fallbackStep
  cases c.author with
  | none => exact sumEvolves_refl summary
  | some a =>
    dsimp only
    by_cases hcond : a ∈ ids ∧ (summary a).any_commit = false
    · rw [if_pos hcond]
      have hfrozen : Satisfied (summary a) = true → False := by
        intro h
        simp only [Satisfied, Bool.and_eq_true] at h
        rw [hcond.2] at h
        cases h.1.2
      by_cases ht : truthyDate (summary a).last_push_date = false
      · rw [if_pos ht]
        refine sumEvolves_updateUser summary a _ ⟨fun h => ⟨h, rfl⟩,
          fun h => ⟨h, rfl⟩, fun h => ⟨h, rfl⟩⟩ (fun h => ?_)
          (fun h => absurd h (fun hh => hfrozen hh))
        · simp only [WFRecord] at h ⊢
          exact h
      · rw [if_neg ht]
        cases hp : (summary a).last_push_date with
        | none => exact sumEvolves_refl summary
        | some prev =>
          cases hd : c.date with
          | none => exact sumEvolves_refl summary
          | some d =>
            dsimp only
            by_cases hlt : prev < d
            · rw [if_pos hlt]
              refine sumEvolves_updateUser summary a _ ⟨fun h => ⟨h, rfl⟩,
                fun h => ⟨h, rfl⟩, fun h => ⟨h, rfl⟩⟩ (fun h => ?_)
                (fun h => absurd h (fun hh => hfrozen hh))
              · simp only [WFRecord] at h ⊢
                exact h
            · rw [if_neg hlt]
              exact sumEvolves_refl summary
    · rw [if_neg hcond]
      exact sumEvolves_refl summary

theorem defaultScan_evolves (key : String) (ids : List String)
    (cs : List Commit) (summary : String → UserRecord) :
    SumEvolves summary (defaultScan key ids cs summary) :=
  foldl_rel SumEvolves (fun _ _ _ => sumEvolves_trans)
    (defaultScanStep key ids) (defaultScanStep_evolves key ids)
    sumEvolves_refl cs summary

theorem branchScan_evolves (api : Api) (org rname key : String)
    (ids : List String) (bs : List Branch) (summary : String → UserRecord) :
    SumEvolves summary (branchScan api org rname key ids bs summary) := by
  unfold branchScan
  exact foldl_rel SumEvolves (fun _ _ _ => sumEvolves_trans)
    (fun acc b => (optList (api.commitsSince org rname b.name 30)).foldl
      (anyCommitStep key b.name ids) acc)
    (fun σ b =>
      foldl_rel SumEvolves (fun _ _ _ => sumEvolves_trans)
        (anyCommitStep key b.name ids) (anyCommitStep_evolves key b.name ids)
        sumEvolves_refl (optList (api.commitsSince org rname b.name 30)) σ)
    sumEvolves_refl bs summary

theorem eventScan_evolves (key : String) (ids : List String)
    (evs : List Event) (summary : String → UserRecord) :
    SumEvolves summary (eventScan key ids evs summary) :=
  foldl_rel SumEvolves (fun _ _ _ => sumEvolves_trans)
    (anyActivityStep key ids) (anyActivityStep_evolves key ids)
    sumEvolves_refl evs summary

theorem fallbackScan_evolves (api : Api) (org rname : String)
    (ids : List String) (bs : List Branch) (summary : String → UserRecord) :
    SumEvolves summary (fallbackScan api org rname ids bs summary) := by
  unfold fallbackScan
  exact foldl_rel SumEvolves (fun _ _ _ => sumEvolves_trans)
    (fun acc b => (optList (api.commitsSince org rname b.name 90)).foldl
      (fallbackStep ids) acc)
    (fun σ b =>
      foldl_rel SumEvolves (fun _ _ _ => sumEvolves_trans)
        (fallbackStep ids) (fallbackStep_evolves ids)
        sumEvolves_refl (optList (api.commitsSince org rname b.name 90)) σ)
    sumEvolves_refl bs summary

-- ----------------------- state-level evolution -----------------------

/-- How the whole scan state may evolve across any portion of the run: the
active-user list only shrinks (as a sublist) and the summary table evolves
pointwise. -/
def Evolves (s s' : ScanState) : Prop :=
  List.Sublist s'.user_ids s.user_ids ∧
  SumEvolves s.user_summary s'.user_summary

theorem evolves_refl (s : ScanState) : Evolves s s :=
  ⟨List.Sublist.refl _, sumEvolves_refl _⟩

theorem evolves_trans {a b c : ScanState} (h1 : Evolves a b)
    (h2 : Evolves b c) : Evolves a c :=
  ⟨h2.1.trans h1.1, sumEvolves_trans h1.2 h2.2⟩

theorem processRepoBody_evolves (api : Api) (org : String) (repo : Repo)
    (s : ScanState) : Evolves s (processRepoBody api org repo s).1 := by
  unfold processRepoBody
  by_cases hb : isUnavailableOrEmpty (api.branches org repo.name)
  · simp only [hb, if_true]
    exact ⟨List.Sublist.refl _, defaultScan_evolves _ _ _ _⟩
  · simp only [hb, if_false, Bool.false_eq_true]
    refine ⟨List.filter_sublist _, ?_⟩
    exact sumEvolves_trans (defaultScan_evolves _ _ _ _)
      (sumEvolves_trans (branchScan_evolves _ _ _ _ _ _ _)
        (sumEvolves_trans (eventScan_evolves _ _ _ _)
          (fallbackScan_evolves _ _ _ _ _ _)))

theorem processRepos_evolves (api : Api) (org : String) (rs : List Repo)
    (s : ScanState) : Evolves s (processRepos api org rs s) := by
  induction rs generalizing s with
  | nil => exact evolves_refl s
  | cons repo rest ih =>
    unfold processRepos
    have hbody := processRepoBody_evolves api org repo s
    by_cases hskip : (processRepoBody api org repo s).2
    · simp only [hskip, if_true]
      exact evolves_trans hbody (ih _)
    · simp only [hskip, if_false, Bool.false_eq_true]
      by_cases hempty : (processRepoBody api org repo s).1.user_ids.isEmpty
      · simp only [hempty, if_true]
        exact hbody
      · simp only [hempty, if_false, Bool.false_eq_true]
        exact evolves_trans hbody (ih _)

theorem processPages_evolves (api : Api) (org : String) (fuel page : Nat)
    (s : ScanState) : Evolves s (processPages api org fuel page s) := by
  induction fuel generalizing page s with
  | zero => exact evolves_refl s
  | succ f ih =>
    unfold processPages
    have hstep : Evolves s
        ({ s with pageFetches := s.pageFetches ++ [(org, page)] } : ScanState) :=
      ⟨List.Sublist.refl _, sumEvolves_refl _⟩
    by_cases he : isUnavailableOrEmpty (api.orgRepos org page)
    · simp only [he, if_true]
      exact hstep
    · simp only [he, if_false, Bool.false_eq_true]
      have hrepos := processRepos_evolves api org (optList (api.orgRepos org page))
        ({ s with pageFetches := s.pageFetches ++ [(org, page)] })
      by_cases hempty : (processRepos api org (optList (api.orgRepos org page))
          ({ s with pageFetches := s.pageFetches ++ [(org, page)] })).user_ids.isEmpty
      · simp only [hempty, if_true]
        exact evolves_trans hstep hrepos
      · simp only [hempty, if_false, Bool.false_eq_true]
        exact evolves_trans (evolves_trans hstep hrepos) (ih _ _)

theorem runFrom_evolves (api : Api) (fuel : Nat) (orgs : List String)
    (s : ScanState) : Evolves s (runFrom api fuel orgs s) :=
  foldl_rel Evolves (fun _ _ _ => evolves_trans) _
    (fun acc org => processPages_evolves api org fuel 1 acc)
    evolves_refl orgs s

-- ----------------------- C5 and C6 claim theorems -----------------------

/-- C5: across any remainder of a run, each user's flag/source pairs are
monotone — once a flag is true it stays true and its paired source string is
never overwritten or cleared (`RecordLe`) — and the pairing invariant "a
true flag has its source set" is preserved (`WFRecord`); since a pair is
only ever written together, with the source set to a repo/branch/event
string, the source is non-empty from the first qualifying observation on. -/
theorem flag_source_monotone (api : Api) (fuel : Nat) (orgs : List String)
    (s : ScanState) (u : String) :
    RecordLe (s.user_summary u) ((runFrom api fuel orgs s).user_summary u) ∧
    (WFRecord (s.user_summary u) = true →
      WFRecord ((runFrom api fuel orgs s).user_summary u) = true) := by
  have h := (runFrom_evolves api fuel orgs s).2 u
  exact ⟨h.1, h.2.1⟩

/-- A one-user state whose record is fully satisfied, with the pairing
invariant holding. -/
def satState : ScanState :=
  { user_summary := fun _ =>
      { default_commit := true
        any_commit := true
        any_activity := true
        default_commit_source := some "o1/r1"
        any_commit_source := some "o1/r1@dev"
        any_activity_source := some "o1/r1:PushEvent"
        last_push_date := none }
    user_ids := ["alice"]
    cache := []
    repo_audit := []
    saves := []
    pageFetches := [] }

/-- Witness for `flag_source_monotone` on a concrete satisfied state run
through `apiC1`. -/
theorem flag_source_monotone_witness :
    RecordLe (satState.user_summary "alice")
      ((runFrom apiC1 3 ["o1"] satState).user_summary "alice") ∧
    WFRecord ((runFrom apiC1 3 ["o1"] satState).user_summary "alice") = true :=
  ⟨(flag_source_monotone apiC1 3 ["o1"] satState "alice").1,
   (flag_source_monotone apiC1 3 ["o1"] satState "alice").2 (by decide)⟩

/-- C6: across any remainder of a run the active-user list only loses
elements (it is a sublist of what it was, so its size is non-increasing and
a removed user never reappears), and the record of a user already satisfying
all three flags is never mutated again — every scan's match condition
requires some flag to still be false, so a fully satisfied user can never
appear in a match set. -/
theorem active_set_shrinks_and_satisfied_frozen (api : Api) (fuel : Nat)
    (orgs : List String) (s : ScanState) :
    List.Sublist (runFrom api fuel orgs s).user_ids s.user_ids ∧
    (runFrom api fuel orgs s).user_ids.length ≤ s.user_ids.length ∧
    (∀ u, Satisfied (s.user_summary u) = true →
      (runFrom api fuel orgs s).user_summary u = s.user_summary u) := by
  have h := runFrom_evolves api fuel orgs s
  exact ⟨h.1, h.1.length_le, fun u hu => (h.2 u).2.2 hu⟩

/-- Witness for `active_set_shrinks_and_satisfied_frozen`: the satisfied
user `alice`'s record is untouched by a further run over `apiC1`. -/
theorem active_set_shrinks_and_satisfied_frozen_witness :
    Satisfied (satState.user_summary "alice") = true ∧
    (runFrom apiC1 3 ["o1"] satState).user_summary "alice"
      = satState.user_summary "alice" :=
  ⟨by decide,
   (active_set_shrinks_and_satisfied_frozen apiC1 3 ["o1"] satState).2.2
     "alice" (by decide)⟩

-- ----------------------- C3: branch-list skip frame -----------------------

/-- Equality of all record fields except the default-branch pair — what a
repository visit that `continue`s after its default-branch scan preserves. -/
def OtherThanDefaultEq (r r' : UserRecord) : Prop :=
  r'.any_commit = r.any_commit ∧ r'.any_activity = r.any_activity ∧
  r'.any_commit_source = r.any_commit_source ∧
  r'.any_activity_source = r.any_activity_source ∧
  r'.last_push_date = r.last_push_date

theorem otherThanDefaultEq_refl (r : UserRecord) : OtherThanDefaultEq r r :=
  ⟨rfl, rfl, rfl, rfl, rfl⟩

theorem otherThanDefaultEq_trans {a b c : UserRecord}
    (h1 : OtherThanDefaultEq a b) (h2 : OtherThanDefaultEq b c) :
    OtherThanDefaultEq a c :=
  ⟨h2.1.trans h1.1, h2.2.1.trans h1.2.1, h2.2.2.1.trans h1.2.2.1,
   h2.2.2.2.1.trans h1.2.2.2.1, h2.2.2.2.2.trans h1.2.2.2.2⟩

/-- A point update relates pointwise to the original table whenever the new
record relates to the replaced one. -/
theorem pointwise_updateUser (P : UserRecord → UserRecord → Prop)
    (hrefl : ∀ r, P r r) (summary : String → UserRecord) (a : String)
    (r' : UserRecord) (h : P (summary a) r') :
    ∀ u, P (summary u) (updateUser summary a r' u) := by
  intro u
  by_cases hu : u = a
  · subst hu
    have hval : updateUser summary u r' u = r' := by simp [updateUser]
    rw [hval]
    exact h
  · have hval : updateUser summary a r' u = summary u := by
      simp [updateUser, hu]
    rw [hval]
    exact hrefl _

theorem defaultScanStep_frame (key : String) (ids : List String)
    (summary : String → UserRecord) (c : Commit) :
    ∀ u, OtherThanDefaultEq (summary u) (defaultScanStep key ids summary c u) := by
  intro u
  unfold defaultScanStep
  cases c.author with
  | none => exact otherThanDefaultEq_refl _
  | some a =>
    dsimp only
    by_cases hcond : a ∈ ids ∧ (summary a).default_commit = false
    · rw [if_pos hcond]
      refine pointwise_updateUser OtherThanDefaultEq otherThanDefaultEq_refl
        summary a _ ?_ u
      exact ⟨rfl, rfl, rfl, rfl, rfl⟩
    · rw [if_neg hcond]
      exact otherThanDefaultEq_refl _

theorem defaultScan_frame (key : String) (ids : List String)
    (cs : List Commit) (summary : String → UserRecord) :
    ∀ u, OtherThanDefaultEq (summary u) (defaultScan key ids cs summary u) :=
  foldl_rel (fun σ σ' : String → UserRecord =>
      ∀ u, OtherThanDefaultEq (σ u) (σ' u))
    (fun _ _ _ h1 h2 u => otherThanDefaultEq_trans (h1 u) (h2 u))
    (defaultScanStep key ids)
    (fun σ c u => defaultScanStep_frame key ids σ c u)
    (fun σ u => otherThanDefaultEq_refl (σ u)) cs summary

/-- C3: when a repository's branch-list fetch is unavailable or empty, the
`continue` skips every remaining per-repository step: the state keeps its
saves (no checkpoint write), its active-user list (no recomputation), and
every user's `any_commit`, `any_activity`, their sources, and
`last_push_date` (no branch scan, no event scan, no fallback scan); only the
audit entry, the in-memory cache key, and the already-run default-branch
scan are retained. -/
theorem branches_unavailable_skips_rest (api : Api) (org : String)
    (repo : Repo) (s : ScanState)
    (h : isUnavailableOrEmpty (api.branches org repo.name) = true) :
    (processRepoBody api org repo s).2 = true ∧
    (processRepoBody api org repo s).1.saves = s.saves ∧
    (processRepoBody api org repo s).1.user_ids = s.user_ids ∧
    (processRepoBody api org repo s).1.repo_audit = s.repo_audit ++
      [{ repo := org ++ "/" ++ repo.name
         default_branch := repo.default_branch }] ∧
    ∀ u, OtherThanDefaultEq (s.user_summary u)
      ((processRepoBody api org repo s).1.user_summary u) := by
  unfold processRepoBody
  simp only [h, if_true]
  refine ⟨?_, ?_, ?_, ?_, fun u => defaultScan_frame _ _ _ _ u⟩
  all_goals trivial

/-- Witness for `branches_unavailable_skips_rest` on `apiC2`, whose branch
endpoint always fails. -/
theorem branches_unavailable_skips_rest_witness :
    (processRepoBody apiC2 "o1" repoR1 (initState ["alice"] [])).2 = true ∧
    (processRepoBody apiC2 "o1" repoR1 (initState ["alice"] [])).1.saves = [] ∧
    (processRepoBody apiC2 "o1" repoR1 (initState ["alice"] [])).1.user_ids =
      ["alice"] :=
  ⟨(branches_unavailable_skips_rest apiC2 "o1" repoR1
      (initState ["alice"] []) (by decide)).1,
   (branches_unavailable_skips_rest apiC2 "o1" repoR1
      (initState ["alice"] []) (by decide)).2.1,
   (branches_unavailable_skips_rest apiC2 "o1" repoR1
      (initState ["alice"] []) (by decide)).2.2.1⟩

-- ----------------------- C8: fetcher contract -----------------------

/-- Without a 403 status or without the remaining-quota header, the guard
never sleeps. -/
theorem rate_limit_guard_no_sleep {α : Type} (now : Int)
    (r : HttpResponse α) (h : r.status_code ≠ 403 ∨ r.rateRemaining = none) :
    rate_limit_guard now r = Except.ok 0 := by
  unfold rate_limit_guard
  cases hrem : r.rateRemaining with
  | none => rfl
  | some remaining =>
    rcases h with h | h
    · dsimp only
      rw [if_neg]
      simp only [beq_iff_eq]
      exact h
    · rw [h] at hrem
      cases hrem

/-- C8: `github_request` is total — every input yields a `FetchResult`, the
embedding of "never raises".  On success it returns the parsed payload with
no log entry; on any failure it returns the sentinel `none` and appends a
log line carrying the locator and the error detail; and when the response
status is not 403 or the remaining-quota header is absent (including when
the GET itself raised), no sleep occurs. -/
theorem github_request_contract {α : Type} (now : Int) (url : String)
    (get : Except String (HttpResponse α)) :
    ((github_request now url get).log = none ↔
       ∃ v, (github_request now url get).value = some v) ∧
    ((github_request now url get).value = none →
       ∃ e, (github_request now url get).log = some (failLog url e)) ∧
    (∀ e, get = Except.error e → (github_request now url get).slept = 0) ∧
    (∀ r, get = Except.ok r →
       (r.status_code ≠ 403 ∨ r.rateRemaining = none) →
       (github_request now url get).slept = 0) := by
  cases get with
  | error e =>
    refine ⟨?_, ?_, ?_, ?_⟩
    · simp [github_request]
    · intro _
      exact ⟨e, rfl⟩
    · intro _ _
      rfl
    · intro r hr
      cases hr
  | ok response =>
    cases hg : rate_limit_guard now response with
    | error e =>
      refine ⟨?_, ?_, ?_, ?_⟩
      · simp [github_request, hg]
      · intro _
        exact ⟨e, by simp [github_request, hg]⟩
      · intro _ h
        cases h
      · intro r hr hcond
        cases hr
        simp [github_request, hg]
    | ok slept =>
      have hslept : ∀ r, (Except.ok response : Except String (HttpResponse α)) = Except.ok r →
          (r.status_code ≠ 403 ∨ r.rateRemaining = none) →
          (github_request now url (Except.ok response)).slept = 0 := by
        intro r hr hcond
        cases hr
        have h0 := rate_limit_guard_no_sleep now response hcond
        rw [h0] at hg
        cases hg
        by_cases hs : 400 ≤ response.status_code
        · simp [github_request, h0, hs]
        · cases hj : response.jsonBody with
          | ok v => simp [github_request, h0, hs, hj]
          | error e => simp [github_request, h0, hs, hj]
      by_cases hs : 400 ≤ response.status_code
      · refine ⟨?_, ?_, ?_, hslept⟩
        · simp [github_request, hg, hs]
        · intro _
          exact ⟨"HTTPError " ++ toString response.status_code,
            by simp [github_request, hg, hs]⟩
        · intro _ h
          cases h
      · cases hj : response.jsonBody with
        | ok v =>
          refine ⟨?_, ?_, ?_, hslept⟩
          · simp [github_request, hg, hs, hj]
          · intro hv
            simp [github_request, hg, hs, hj] at hv
          · intro _ h
            cases h
        | error e =>
          refine ⟨?_, ?_, ?_, hslept⟩
          · simp [github_request, hg, hs, hj]
          · intro _
            exact ⟨e, by simp [github_request, hg, hs, hj]⟩
          · intro _ h
            cases h

/-- Witness for `github_request_contract`: a GET that raises yields the
sentinel, a url-tagged log line, and no sleep. -/
theorem github_request_contract_witness :
    ((github_request (0 : Int) "https://api.github.com/x"
        (Except.error "boom" : Except String (HttpResponse Unit))).value = none →
      ∃ e, (github_request (0 : Int) "https://api.github.com/x"
        (Except.error "boom" : Except String (HttpResponse Unit))).log =
          some (failLog "https://api.github.com/x" e)) ∧
    (github_request (0 : Int) "https://api.github.com/x"
        (Except.error "boom" : Except String (HttpResponse Unit))).slept = 0 :=
  ⟨(github_request_contract (0 : Int) "https://api.github.com/x"
      (Except.error "boom")).2.1,
   (github_request_contract (0 : Int) "https://api.github.com/x"
      (Except.error "boom")).2.2.1 "boom" rfl⟩

-- ----------------------- C9: fallback last-push scan -----------------------

/-- Python truthiness of a well-formed stored date: `None` is fine as "no
date yet", a stored string must be non-empty for `not prev_date` to behave
as "no previous date". -/
def okPrev : Option String → Bool
  | none => true
  | some p => !(p == "")

/-- A commit date that is present and non-empty, as ISO-8601 payload dates
are. -/
def goodDate : Option String → Bool
  | none => false
  | some d => !(d == "")

/-- One step of the `last_push_date` update (lines 156-158): take the new
date when the previous one is falsy, otherwise keep the later of the two. -/
def pushDateStep (prev d : Option String) : Option String :=
  if truthyDate prev = false then d
  else
    match prev, d with
    | some p, some dd => if p < dd then some dd else some p
    | _, _ => prev

/-- Keeping the lexicographically later of an accumulator and a new date. -/
def lexLatestStep (acc : Option String) (d : String) : Option String :=
  match acc with
  | none => some d
  | some p => if p < d then some d else acc

/-- The lexicographically-latest date among an initial value and a list of
observed dates (first seen wins ties). -/
def lexLatest (init : Option String) (ds : List String) : Option String :=
  ds.foldl lexLatestStep init

/-- The dates of the commits authored by `u` in a commit list. -/
def datesOf (u : String) (cs : List Commit) : List String :=
  (cs.filter (fun c => c.author == some u)).filterMap (fun c => c.date)

/-- The 90-day commits the fallback scan walks, across all branches in
order. -/
def fallbackCommits (api : Api) (org rname : String) (bs : List Branch) :
    List Commit :=
  (bs.map (fun b => optList (api.commitsSince org rname b.name 90))).flatten

/-- The keep-the-later-date combination used when a previous date exists. -/
def laterDate (prev d : Option String) : Option String :=
  match prev, d with
  | some p, some dd => if p < dd then some dd else some p
  | _, _ => prev

/-- The two evaluation rules of `pushDateStep`. -/
theorem pushDateStep_of_truthy_false (prev d : Option String)
    (h : truthyDate prev = false) : pushDateStep prev d = d := by
  unfold pushDateStep
  rw [if_pos h]

theorem pushDateStep_of_truthy_true (prev d : Option String)
    (h : ¬ truthyDate prev = false) :
    pushDateStep prev d = laterDate prev d := by
  unfold pushDateStep laterDate
  rw [if_neg h]

/-- What `fallbackStep` does at one user: when the commit is authored by an
active user whose `any_commit` is still false, only that user's
`last_push_date` advances by `pushDateStep`; otherwise the record is
untouched. -/
theorem fallbackStep_apply (ids : List String) (σ : String → UserRecord)
    (c : Commit) (u : String) :
    fallbackStep ids σ c u =
      if c.author = some u ∧ u ∈ ids ∧ (σ u).any_commit = false then
        { σ u with last_push_date := pushDateStep (σ u).last_push_date c.date }
      else σ u := by
  unfold fallbackStep
  cases hc : c.author with
  | none =>
    dsimp only
    rw [if_neg]
    rintro ⟨h, -⟩
    cases h
  | some a =>
    dsimp only
    by_cases hau : a = u
    · subst hau
      by_cases hcond : a ∈ ids ∧ (σ a).any_commit = false
      · rw [if_pos hcond, if_pos (show some a = some a ∧ a ∈ ids ∧
          (σ a).any_commit = false from ⟨rfl, hcond⟩)]
        by_cases ht : truthyDate (σ a).last_push_date = false
        · rw [if_pos ht, pushDateStep_of_truthy_false _ _ ht]
          simp [updateUser]
        · rw [if_neg ht, pushDateStep_of_truthy_true _ _ ht]
          cases hp : (σ a).last_push_date with
          | none => exact absurd rfl (hp ▸ ht)
          | some p =>
            cases hd : c.date with
            | none =>
              dsimp only [laterDate]
              rw [← hp]
            | some d =>
              dsimp only [laterDate]
              by_cases hlt : p < d
              · rw [if_pos hlt, if_pos hlt]
                simp [updateUser]
              · rw [if_neg hlt, if_neg hlt]
                rw [← hp]
      · have hnc : ¬(some a = some a ∧ a ∈ ids ∧ (σ a).any_commit = false) :=
          fun h => hcond h.2
        rw [if_neg hcond, if_neg hnc]
    · have hua : u ≠ a := fun h => hau h.symm
      have hnc : ¬(some a = some u ∧ u ∈ ids ∧ (σ u).any_commit = false) := by
        rintro ⟨h, -⟩
        exact hau (Option.some_inj.mp h)
      rw [if_neg hnc]
      by_cases hcond : a ∈ ids ∧ (σ a).any_commit = false
      · rw [if_pos hcond]
        by_cases ht : truthyDate (σ a).last_push_date = false
        · rw [if_pos ht]
          simp [updateUser, hua]
        · rw [if_neg ht]
          cases hp : (σ a).last_push_date with
          | none => rfl
          | some p =>
            cases hd : c.date with
            | none => rfl
            | some d =>
              dsimp only
              by_cases hlt : p < d
              · rw [if_pos hlt]
                simp [updateUser, hua]
              · rw [if_neg hlt]
      · rw [if_neg hcond]

/-- Equality of all record fields except `last_push_date` — what the
fallback scan preserves for every user. -/
def OtherThanLastPushEq (r r' : UserRecord) : Prop :=
  r'.default_commit = r.default_commit ∧ r'.any_commit = r.any_commit ∧
  r'.any_activity = r.any_activity ∧
  r'.default_commit_source = r.default_commit_source ∧
  r'.any_commit_source = r.any_commit_source ∧
  r'.any_activity_source = r.any_activity_source

theorem otherThanLastPushEq_refl (r : UserRecord) : OtherThanLastPushEq r r :=
  ⟨rfl, rfl, rfl, rfl, rfl, rfl⟩

theorem otherThanLastPushEq_trans {a b c : UserRecord}
    (h1 : OtherThanLastPushEq a b) (h2 : OtherThanLastPushEq b c) :
    OtherThanLastPushEq a c :=
  ⟨h2.1.trans h1.1, h2.2.1.trans h1.2.1, h2.2.2.1.trans h1.2.2.1,
   h2.2.2.2.1.trans h1.2.2.2.1, h2.2.2.2.2.1.trans h1.2.2.2.2.1,
   h2.2.2.2.2.2.trans h1.2.2.2.2.2⟩

theorem fallbackStep_frame (ids : List String) (σ : String → UserRecord)
    (c : Commit) (u : String) :
    OtherThanLastPushEq (σ u) (fallbackStep ids σ c u) := by
  rw [fallbackStep_apply]
  by_cases h : c.author = some u ∧ u ∈ ids ∧ (σ u).any_commit = false
  · rw [if_pos h]
    exact ⟨rfl, rfl, rfl, rfl, rfl, rfl⟩
  · rw [if_neg h]
    exact otherThanLastPushEq_refl _

theorem fallback_foldl_frame (ids : List String) (cs : List Commit)
    (σ : String → UserRecord) (u : String) :
    OtherThanLastPushEq (σ u) (cs.foldl (fallbackStep ids) σ u) :=
  foldl_rel (fun τ τ' : String → UserRecord =>
      ∀ v, OtherThanLastPushEq (τ v) (τ' v))
    (fun _ _ _ h1 h2 v => otherThanLastPushEq_trans (h1 v) (h2 v))
    (fallbackStep ids)
    (fun τ c' v => fallbackStep_frame ids τ c' v)
    (fun τ v => otherThanLastPushEq_refl (τ v)) cs σ u

/-- A user who is inactive, or whose `any_commit` flag is already true, is
completely untouched by the fallback fold. -/
theorem fallback_foldl_unchanged (ids : List String) (u : String) :
    ∀ (cs : List Commit) (σ : String → UserRecord),
      (u ∉ ids ∨ (σ u).any_commit = true) →
      cs.foldl (fallbackStep ids) σ u = σ u := by
  intro cs
  induction cs with
  | nil => intro σ _; rfl
  | cons c rest ih =>
    intro σ h
    have hstep : fallbackStep ids σ c u = σ u := by
      rw [fallbackStep_apply, if_neg]
      rintro ⟨-, hmem, hany⟩
      rcases h with h | h
      · exact h hmem
      · rw [hany] at h
        cases h
    rw [List.foldl_cons]
    have h' : u ∉ ids ∨ ((fallbackStep ids σ c) u).any_commit = true := by
      rcases h with h | h
      · exact Or.inl h
      · exact Or.inr (hstep ▸ h)
    rw [ih _ h', hstep]

theorem pushDateStep_eq_lexLatestStep (prev : Option String) (d : String)
    (hok : okPrev prev = true) :
    pushDateStep prev (some d) = lexLatestStep prev d := by
  cases prev with
  | none => rfl
  | some p =>
    have hp : (p == "") = false := by
      simpa [okPrev] using hok
    have ht : ¬ truthyDate (some p) = false := by
      simp [truthyDate, hp]
    rw [pushDateStep_of_truthy_true _ _ ht]
    rfl

theorem okPrev_lexLatestStep (prev : Option String) (d : String)
    (hok : okPrev prev = true) (hd : (d == "") = false) :
    okPrev (lexLatestStep prev d) = true := by
  cases prev with
  | none => simpa [lexLatestStep, okPrev] using hd
  | some p =>
    show okPrev (if p < d then some d else some p) = true
    by_cases hlt : p < d
    · rw [if_pos hlt]
      simpa [okPrev] using hd
    · rw [if_neg hlt]
      exact hok

/-- Characterization of the fallback fold: for an active user with
`any_commit` still false and a well-formed stored date, the resulting
`last_push_date` is the lexicographically-latest of the stored date and all
observed dates of that user's commits. -/
theorem fallback_foldl_lastPush (ids : List String) (u : String)
    (hmem : u ∈ ids) :
    ∀ (cs : List Commit) (σ : String → UserRecord),
      (∀ c ∈ cs, goodDate c.date = true) →
      (σ u).any_commit = false →
      okPrev ((σ u).last_push_date) = true →
      (cs.foldl (fallbackStep ids) σ u).last_push_date
        = lexLatest ((σ u).last_push_date) (datesOf u cs) := by
  intro cs
  induction cs with
  | nil =>
    intro σ _ _ _
    rfl
  | cons c rest ih =>
    intro σ hdates hany hok
    have hgood := hdates c (List.mem_cons_self c rest)
    have hrest : ∀ c' ∈ rest, goodDate c'.date = true :=
      fun c' hc' => hdates c' (List.mem_cons_of_mem c hc')
    obtain ⟨d, hcd, hdne⟩ : ∃ d, c.date = some d ∧ (d == "") = false := by
      cases hcdate : c.date with
      | none => rw [hcdate] at hgood; cases hgood
      | some d =>
        rw [hcdate] at hgood
        exact ⟨d, rfl, by simpa [goodDate] using hgood⟩
    rw [List.foldl_cons]
    by_cases hau : c.author = some u
    · have hstep : fallbackStep ids σ c u =
          { σ u with
            last_push_date := pushDateStep (σ u).last_push_date c.date } := by
        rw [fallbackStep_apply, if_pos ⟨hau, hmem, hany⟩]
      have hdlist : datesOf u (c :: rest) = d :: datesOf u rest := by
        unfold datesOf
        rw [List.filter_cons_of_pos (by simpa using hau),
          List.filterMap_cons_some hcd]
      have hany' : ((fallbackStep ids σ c) u).any_commit = false := by
        rw [hstep]
        exact hany
      have hpush : ((fallbackStep ids σ c) u).last_push_date =
          lexLatestStep ((σ u).last_push_date) d := by
        rw [hstep]
        show pushDateStep (σ u).last_push_date c.date = _
        rw [hcd]
        exact pushDateStep_eq_lexLatestStep _ d hok
      have hok' : okPrev (((fallbackStep ids σ c) u).last_push_date) = true := by
        rw [hpush]
        exact okPrev_lexLatestStep _ d hok hdne
      rw [ih (fallbackStep ids σ c) hrest hany' hok', hpush, hdlist]
      rfl
    · have hstep : fallbackStep ids σ c u = σ u := by
        rw [fallbackStep_apply, if_neg (fun h => hau h.1)]
      have hdlist : datesOf u (c :: rest) = datesOf u rest := by
        unfold datesOf
        rw [List.filter_cons_of_neg (by simpa using hau)]
      have hany' : ((fallbackStep ids σ c) u).any_commit = false := by
        rw [hstep]
        exact hany
      have hok' : okPrev (((fallbackStep ids σ c) u).last_push_date) = true := by
        rw [hstep]
        exact hok
      rw [ih (fallbackStep ids σ c) hrest hany' hok', hstep, hdlist]

/-- The nested branch/commit double loop of the fallback scan folds the
flattened commit sequence. -/
theorem fallbackScan_eq_foldl (api : Api) (org rname : String)
    (ids : List String) (bs : List Branch) (σ : String → UserRecord) :
    fallbackScan api org rname ids bs σ =
      (fallbackCommits api org rname bs).foldl (fallbackStep ids) σ := by
  unfold fallbackScan fallbackCommits
  induction bs generalizing σ with
  | nil => rfl
  | cons b rest ih =>
    rw [List.foldl_cons, List.map_cons, List.flatten_cons, List.foldl_append]
    exact ih _

/-- C9: the fallback 90-day scan updates only active users whose
`any_commit` is still false — any other user's record is returned verbatim;
for every user it changes no flag and no source (only `last_push_date` may
move); and for an eligible user with a well-formed stored date and
well-formed payload dates, the resulting `last_push_date` is the
lexicographically-latest of the stored date and the dates of that user's
commits observed across all branches (unchanged when there are none). -/
theorem fallback_scan_spec (api : Api) (org rname : String)
    (ids : List String) (bs : List Branch) (σ : String → UserRecord)
    (u : String)
    (hdates : ∀ c ∈ fallbackCommits api org rname bs, goodDate c.date = true) :
    ((u ∉ ids ∨ (σ u).any_commit = true) →
      fallbackScan api org rname ids bs σ u = σ u) ∧
    OtherThanLastPushEq (σ u) (fallbackScan api org rname ids bs σ u) ∧
    (u ∈ ids → (σ u).any_commit = false →
      okPrev ((σ u).last_push_date) = true →
      (fallbackScan api org rname ids bs σ u).last_push_date
        = lexLatest ((σ u).last_push_date)
            (datesOf u (fallbackCommits api org rname bs))) := by
  rw [fallbackScan_eq_foldl]
  refine ⟨fun h => fallback_foldl_unchanged ids u _ σ h,
    fallback_foldl_frame ids _ σ u,
    fun hm ha hok => fallback_foldl_lastPush ids u hm _ σ hdates ha hok⟩

/-- Oracle for the fallback-scan witness: two branches whose 90-day commit
lists carry `bob` commits with distinct dates (and a `carol` commit that
must not count for `bob`). -/
def apiC9 : Api :=
  { orgRepos := fun _ _ => some []
    commitsSince := fun _ _ b since =>
      if since = 90 then
        (if b = "b1" then
          some [{ author := some "bob", date := some "2025-02-03T00:00:00Z" },
                { author := some "carol", date := some "2025-03-01T00:00:00Z" }]
         else
          some [{ author := some "bob", date := some "2025-01-01T00:00:00Z" }])
      else some []
    branches := fun _ _ => some [{ name := "b1" }, { name := "b2" }]
    events := fun _ _ => some [] }

/-- Witness for `fallback_scan_spec`: `bob`'s `last_push_date` after the
fallback scan equals the lexicographic maximum of his observed dates. -/
theorem fallback_scan_spec_witness :
    (fallbackScan apiC9 "o" "r" ["bob"] [{ name := "b1" }, { name := "b2" }]
        (fun _ => initUserRecord) "bob").last_push_date
      = lexLatest ((fun _ => initUserRecord : String → UserRecord)
            "bob").last_push_date
          (datesOf "bob"
            (fallbackCommits apiC9 "o" "r" [{ name := "b1" }, { name := "b2" }])) :=
  (fallback_scan_spec apiC9 "o" "r" ["bob"] [{ name := "b1" }, { name := "b2" }]
      (fun _ => initUserRecord) "bob" (by decide)).2.2
    (by decide) (by decide) (by decide)

-- ----------------------- C10: report builder -----------------------

/-- Membership in the dict-key sequence: an identifier appears among the
keys iff it appears in the original list and was not already seen. -/
theorem mem_firstOccurrences (u : String) :
    ∀ (l seen : List String),
      u ∈ firstOccurrences seen l ↔ u ∈ l ∧ u ∉ seen := by
  intro l
  induction l with
  | nil =>
    intro seen
    simp [firstOccurrences]
  | cons x xs ih =>
    intro seen
    unfold firstOccurrences
    by_cases hx : x ∈ seen
    · rw [if_pos hx, ih seen]
      constructor
      · rintro ⟨hu, hs⟩
        exact ⟨List.mem_cons_of_mem x hu, hs⟩
      · rintro ⟨hu, hs⟩
        rcases List.mem_cons.mp hu with rfl | hu
        · exact absurd hx hs
        · exact ⟨hu, hs⟩
    · rw [if_neg hx]
      constructor
      · intro hu
        rcases List.mem_cons.mp hu with rfl | hu
        · exact ⟨List.mem_cons_self _ _, hx⟩
        · obtain ⟨h1, h2⟩ := (ih (x :: seen)).mp hu
          refine ⟨List.mem_cons_of_mem x h1, fun hs => h2 ?_⟩
          exact List.mem_cons_of_mem x hs
      · rintro ⟨hu, hs⟩
        rcases List.mem_cons.mp hu with rfl | hu
        · exact List.mem_cons_self _ _
        · by_cases hxu : u = x
          · subst hxu
            exact List.mem_cons_self _ _
          · refine List.mem_cons_of_mem _ ((ih (x :: seen)).mpr ⟨hu, ?_⟩)
            intro hmem
            rcases List.mem_cons.mp hmem with h | h
            · exact hxu h
            · exact hs h

theorem mem_dedupKeys (u : String) (l : List String) :
    u ∈ dedupKeys l ↔ u ∈ l := by
  unfold dedupKeys
  rw [mem_firstOccurrences]
  simp

/-- C10: the report contains exactly one Summary row per original tracked
identifier — the row sequence's identifiers are exactly the `user_summary`
dict keys (first occurrence of each original id, independent of the final,
possibly empty, active set) — each row carries that user's final flags,
sources and `last_push_date` unchanged, and the RepoAudit rows are exactly
the accumulated `RepoAuditEntry` list, with no further transformation,
filtering or sorting. -/
theorem report_builder_faithful (api : Api) (fuel : Nat)
    (orgs user_ids : List String) :
    (buildReport api fuel orgs user_ids).1.map SummaryRow.user_id =
      dedupKeys user_ids ∧
    (∀ uid, uid ∈ user_ids →
      mkSummaryRow (check_user_activity api fuel orgs user_ids).user_summary uid
        ∈ (buildReport api fuel orgs user_ids).1) ∧
    (∀ row, row ∈ (buildReport api fuel orgs user_ids).1 →
      row = mkSummaryRow
        (check_user_activity api fuel orgs user_ids).user_summary row.user_id) ∧
    (buildReport api fuel orgs user_ids).2 =
      (check_user_activity api fuel orgs user_ids).repo_audit := by
  refine ⟨?_, ?_, ?_, rfl⟩
  · show ((dedupKeys user_ids).map
        (mkSummaryRow (check_user_activity api fuel orgs user_ids).user_summary)).map
        SummaryRow.user_id = dedupKeys user_ids
    rw [List.map_map]
    exact List.map_id'' (fun _ => rfl) _
  · intro uid hid
    exact List.mem_map_of_mem _ ((mem_dedupKeys uid user_ids).mpr hid)
  · intro row hrow
    obtain ⟨uid, _, rfl⟩ := List.mem_map.mp hrow
    rfl

/-- Witness for `report_builder_faithful` on the two-org oracle: `alice`'s
row is present with her final record. -/
theorem report_builder_faithful_witness :
    mkSummaryRow (check_user_activity apiC1 5 ["o1", "o2"] ["alice"]).user_summary
        "alice" ∈ (buildReport apiC1 5 ["o1", "o2"] ["alice"]).1 ∧
    (buildReport apiC1 5 ["o1", "o2"] ["alice"]).2 =
      (check_user_activity apiC1 5 ["o1", "o2"] ["alice"]).repo_audit :=
  ⟨(report_builder_faithful apiC1 5 ["o1", "o2"] ["alice"]).2.1 "alice"
      (by decide),
   (report_builder_faithful apiC1 5 ["o1", "o2"] ["alice"]).2.2.2⟩
